import Mathlib

/-!
Verification of the non-discrete pair alignment strategy
(`src/pair/strategy/non_discrete_.rs`).

Sequence samples are `f64` values; we embed them as exact rationals `ℚ`
(the idealized real-valued semantics the code computes with), and scores as
`WithTop ℚ`, where `⊤` stands for `f64::INFINITY` (the border sentinel) and
the rational constant `fMAX` stands for the largest finite double
`f64::MAX = (2^53 - 1) * 2^971`.  The square root in the local cost,
`sqrt((lhs-rhs)^2)`, is exactly `|lhs - rhs|` over the reals, and is embedded
as such.

The collaborator types (`Cursor`, `StepMask`, `MatrixCell`, the `Matrix`
trait and `AlignmentSet`) are not part of the analysed source file; they are
modelled from the specification's contracts for them (see the doc comments
marked "Modelled from the spec").
-/

namespace Seal

/-- Scores: finite doubles as rationals, plus `⊤` for `f64::INFINITY`. -/
abbrev Score : Type := WithTop ℚ

/-- The value of `f64::MAX`, exactly: `(2^53 - 1) * 2^971`. -/
def fMAX : ℚ := (2 ^ 53 - 1) * 2 ^ 971

/-- Modelled from the spec: the position type, "an immutable pair of
non-negative integer coordinates `(x, y)`" (`pair::cursor::Cursor`). -/
structure Cursor where
  x : Nat
  y : Nat
deriving DecidableEq

/-- Modelled from the spec: the direction-mask type
(`pair::step_mask::StepMask`), "a set-valued type over the three moves
{consume-x-only, consume-both, consume-y-only}". The `align` field is
consume-both, `delete` is consume-x-only, `insert` is consume-y-only. -/
structure StepMask where
  align : Bool
  delete : Bool
  insert : Bool
deriving DecidableEq

/-- The consume-y-only (insert) direction `StepMask::INSERT`. -/
def StepMask.INSERT : StepMask := ⟨false, false, true⟩

/-- The consume-x-only (delete) direction `StepMask::DELETE`. -/
def StepMask.DELETE : StepMask := ⟨false, true, false⟩

/-- The grid's per-position payload (`pair::matrix::MatrixCell<f64>`):
a cumulative score plus the direction mask. -/
structure MatrixCell where
  score : Score
  mask : StepMask
deriving DecidableEq

/-- The `MatrixCell::new(score, mask)` constructor. -/
def MatrixCell.new (score : Score) (mask : StepMask) : MatrixCell :=
  ⟨score, mask⟩

/-- Modelled from the spec: `MatrixCell::from_scores(align, delete, insert)`,
"construction from three scores (select minimum, flag all ties)"; the cell's
score is the minimum of the three predecessor scores and the mask records
every direction achieving it. -/
def MatrixCell.from_scores (align delete insert : Score) : MatrixCell :=
  let m := min align (min delete insert)
  ⟨m, ⟨decide (align = m), decide (delete = m), decide (insert = m)⟩⟩

/-- Modelled from the spec: the "defined default cell" a freshly allocated
grid holds, "the grid's default zero-cost origin": score `0`, no
directions set. -/
def defaultCell : MatrixCell := ⟨((0 : ℚ) : Score), ⟨false, false, false⟩⟩

/-- Modelled from the spec: the grid abstraction (the `Matrix` trait).
Cells are a total assignment of payloads to positions; `writes` records, in
order, every position defined by the allocation (the origin's default) or by
a `cell_mut` write. -/
structure Matrix where
  width : Nat
  height : Nat
  cells : Cursor → MatrixCell
  writes : List Cursor

/-- Modelled from the spec: `Matrix::new(width, height)` "allocates a grid
with a defined default cell at the origin".  Allocation never fails in the
model (the only failure the strategy can propagate is allocation failure). -/
def Matrix.new (width height : Nat) : Matrix :=
  ⟨width, height, fun _ => defaultCell, [⟨0, 0⟩]⟩

/-- The read operation `matrix.cell(position)`. -/
def Matrix.cell (m : Matrix) (c : Cursor) : MatrixCell := m.cells c

/-- The write operation `*matrix.cell_mut(position) = cell`. -/
def Matrix.set (m : Matrix) (c : Cursor) (cell : MatrixCell) : Matrix :=
  ⟨m.width, m.height, Function.update m.cells c cell, m.writes ++ [c]⟩

/-- The strategy configuration (`Strategy` struct, lines 17-23): match and
mismatch weights, similarity threshold, and the inclusive score clamp range
`bounds = lo..=hi` stored as the pair `(lo, hi)`. -/
structure Strategy where
  equal : ℚ
  unequal : ℚ
  threshold : ℚ
  bounds : Score × Score

/-- The `Strategy::new` constructor (lines 26-33). -/
def Strategy.new (equal unequal threshold : ℚ) (bounds : Score × Score) :
    Strategy :=
  ⟨equal, unequal, threshold, bounds⟩

/-- The `Strategy::dynamic_time_warping` preset (lines 36-38):
`Self::new(1.0, 1.0, 0.0, 0.0..=MAX)`. -/
def Strategy.dynamic_time_warping : Strategy :=
  Strategy.new 1 1 0 (((0 : ℚ) : Score), ((fMAX : ℚ) : Score))

/-- `Strategy::total_score` (lines 40-48): clamp a score into `bounds`. -/
def Strategy.total_score (s : Strategy) (score : Score) : Score :=
  if score < s.bounds.1 then s.bounds.1
  else if score > s.bounds.2 then s.bounds.2
  else score

/-- The local pairwise cost computed inside `Strategy::calculate_cell`
(lines 58-65): `distance = sqrt((lhs-rhs)^2) = |lhs-rhs|`,
`cost = distance - threshold`, weighted by `equal` when `cost ≥ 0` and by
`unequal` otherwise. -/
def Strategy.local_cost (s : Strategy) (lhs rhs : ℚ) : ℚ :=
  let distance := |lhs - rhs|
  let cost := distance - s.threshold
  if cost ≥ 0 then s.equal * cost else s.unequal * cost

/-- `Strategy::calculate_cell` (lines 50-69): build the cell from the three
predecessor scores `[insert, align, delete]`, add the local cost to the
minimum, and clamp the sum into `bounds`. -/
def Strategy.calculate_cell (s : Strategy) (lhs rhs : ℚ)
    (previous_scores : Score × Score × Score) : MatrixCell :=
  let insert := previous_scores.1
  let align := previous_scores.2.1
  let delete := previous_scores.2.2
  let cell := MatrixCell.from_scores align delete insert
  let score : Score := ((s.local_cost lhs rhs : ℚ) : Score) + cell.score
  ⟨s.total_score score, cell.mask⟩

/-- Modelled from the spec: the result bundle (`AlignmentSet`): the filled
grid, the best score and the best position. -/
structure AlignmentSet where
  matrix : Matrix
  score : Score
  cursor : Cursor

/-- The `AlignmentSet::new(matrix, score, cursor)` constructor. -/
def AlignmentSet.new (matrix : Matrix) (score : Score) (cursor : Cursor) :
    AlignmentSet :=
  ⟨matrix, score, cursor⟩

/-- The mutable state threaded through the fill loops of
`Strategy::alignment_set`: the grid, the rolling previous-row buffer `row`
(a length-`width` vector, modelled as a total function on indices; the code
only ever touches indices `0..width`), and the best-path anchor
`(score, cursor)`. -/
structure FillState where
  matrix : Matrix
  row : Nat → Score
  score : Score
  cursor : Cursor

/-- The inner loop of `Strategy::alignment_set` (lines 106-122), iterating
`(x_idx, x_val)` over the remaining elements of `x`; `last_diagonal` is the
extra scalar carried between iterations. -/
def Strategy.fillRow (s : Strategy) (y_idx : Nat) (y_val : ℚ) :
    List ℚ → Nat → FillState → Score → FillState
  | [], _, st, _ => st
  | x_val :: xs, x_idx, st, last_diagonal =>
    let previous : Score × Score × Score :=
      (st.row (x_idx + 1), last_diagonal, st.row x_idx)
    let cell := s.calculate_cell x_val y_val previous
    let current_cursor : Cursor := ⟨x_idx + 1, y_idx + 1⟩
    let current_score := cell.score
    let best : Score × Cursor :=
      if current_score < st.score then (current_score, current_cursor)
      else (st.score, st.cursor)
    let matrix := st.matrix.set current_cursor cell
    let old_diagonal := st.row (x_idx + 1)
    let row := Function.update st.row (x_idx + 1) current_score
    s.fillRow y_idx y_val xs (x_idx + 1) ⟨matrix, row, best.1, best.2⟩
      old_diagonal

/-- The outer loop of `Strategy::alignment_set` (lines 100-123), iterating
`(y_idx, y_val)` over the remaining elements of `y`; each iteration seeds
`last_diagonal` from `0` (first row) or the clamped score of the grid cell
`(0, y_idx)` and runs the inner loop over all of `x`. -/
def Strategy.fillRows (s : Strategy) (x : List ℚ) :
    List ℚ → Nat → FillState → FillState
  | [], _, st => st
  | y_val :: ys, y_idx, st =>
    let last_diagonal := s.total_score
      (if y_idx = 0 then ((0 : ℚ) : Score)
       else (st.matrix.cell ⟨0, y_idx⟩).score)
    let st := s.fillRow y_idx y_val x 0 st last_diagonal
    s.fillRows x ys (y_idx + 1) st

/-- `Strategy::alignment_set` (lines 75-126): allocate a
`(len x + 1) × (len y + 1)` grid, seed the borders with the `INFINITY`
sentinel (column `0` rows `1..height` as `INSERT`, row `0` columns
`1..width` as `DELETE`), initialize the rolling buffer to `INFINITY`, the
best score to `f64::MAX` and the best cursor to `(1, 1)`, run the fill and
bundle the result. -/
def Strategy.alignment_set (s : Strategy) (x y : List ℚ) : AlignmentSet :=
  let width := x.length + 1
  let height := y.length + 1
  let matrix := Matrix.new width height
  let matrix := (List.range' 1 (height - 1)).foldl
    (fun m yy => m.set ⟨0, yy⟩ (MatrixCell.new ⊤ StepMask.INSERT)) matrix
  let matrix := (List.range' 1 (width - 1)).foldl
    (fun m xx => m.set ⟨xx, 0⟩ (MatrixCell.new ⊤ StepMask.DELETE)) matrix
  let row : Nat → Score := fun _ => ⊤
  let score : Score := ((fMAX : ℚ) : Score)
  let cursor : Cursor := ⟨1, 1⟩
  let st := s.fillRows x y 0 ⟨matrix, row, score, cursor⟩
  AlignmentSet.new st.matrix st.score st.cursor

/-!
Mathematical description of the fill.  `gridScore s x y i j` is the score the
algorithm stores at grid position `(i, j)`: row `0` is the origin (`0`) and
the `⊤` border, and each later row is computed from the previous one by the
cell recurrence, exactly as the rolling-buffer loop reads it (predecessors
are read back raw, except the diagonal of column `1`, which is re-read from
the grid through `total_score`).
-/

/-- One row of the recurrence: given the previous row `prev` (as a function
of the column index), compute the score at column `i` of the current row. -/
def Strategy.gridRowAux (s : Strategy) (x : List ℚ) (y_val : ℚ)
    (prev : Nat → Score) : Nat → Score
  | 0 => ⊤
  | i + 1 =>
    let insert := prev (i + 1)
    let align := if i = 0 then s.total_score (prev 0) else prev i
    let delete := s.gridRowAux x y_val prev i
    (s.calculate_cell (x.getD i 0) y_val (insert, align, delete)).score

/-- Row `j` of the score grid, as a function of the column index. -/
def Strategy.gridRow (s : Strategy) (x y : List ℚ) : Nat → Nat → Score
  | 0 => fun i => if i = 0 then ((0 : ℚ) : Score) else ⊤
  | j + 1 => s.gridRowAux x (y.getD j 0) (s.gridRow x y j)

/-- The score the fill stores at grid position `(i, j)`. -/
def Strategy.gridScore (s : Strategy) (x y : List ℚ) (i j : Nat) : Score :=
  s.gridRow x y j i

/-- The full cell the fill stores at interior position `(i, j)`
(for `i, j ≥ 1`). -/
def Strategy.gridCell (s : Strategy) (x y : List ℚ) (i j : Nat) : MatrixCell :=
  s.calculate_cell (x.getD (i - 1) 0) (y.getD (j - 1) 0)
    (s.gridScore x y i (j - 1),
     (if i = 1 then s.total_score (s.gridScore x y (i - 1) (j - 1))
      else s.gridScore x y (i - 1) (j - 1)),
     s.gridScore x y (i - 1) j)

/-- Description of the grid cells while the fill is underway: borders and
origin as seeded, interior cells computed for rows `< r` and, in row `r`,
for columns `≤ k`; untouched positions still hold the allocation default. -/
def Strategy.matCells (s : Strategy) (x y : List ℚ) (r k : Nat) :
    Cursor → MatrixCell
  | ⟨cx, cy⟩ =>
    if cx = 0 then
      (if cy = 0 then defaultCell
       else if cy ≤ y.length then MatrixCell.new ⊤ StepMask.INSERT
       else defaultCell)
    else if cy = 0 then
      (if cx ≤ x.length then MatrixCell.new ⊤ StepMask.DELETE else defaultCell)
    else if cx ≤ x.length ∧ cy ≤ y.length ∧
        (cy < r ∨ (cy = r ∧ cx ≤ k)) then
      s.gridCell x y cx cy
    else defaultCell

/-- Description of the rolling buffer while row `r` is being filled:
columns `≤ k` already hold the current row's scores, later columns still
hold the previous row's. -/
def Strategy.rowSpec (s : Strategy) (x y : List ℚ) (r k : Nat) :
    Nat → Score := fun a =>
  if a = 0 ∨ x.length < a then ⊤
  else if a ≤ k then s.gridScore x y a r
  else s.gridScore x y a (r - 1)

/-- Description of `last_diagonal` while row `j + 1` is being filled, after
`k` inner iterations. -/
def Strategy.diagSpec (s : Strategy) (x y : List ℚ) (j k : Nat) : Score :=
  if k = 0 then s.total_score (s.gridScore x y 0 j) else s.gridScore x y k j

/-- One best-path anchor update: replace the anchor exactly when the new
interior score is strictly smaller. -/
def bestStep (p : Score × Cursor) (v : Cursor × Score) : Score × Cursor :=
  if v.2 < p.1 then (v.2, v.1) else p

/-- The anchor after a sequence of interior-cell visits. -/
def bestFold (p : Score × Cursor) (l : List (Cursor × Score)) :
    Score × Cursor :=
  l.foldl bestStep p

/-- The interior cells of row `r` from column `k + 1` on, in visit order,
with their scores. -/
def Strategy.rowVisits (s : Strategy) (x y : List ℚ) (r k : Nat) :
    List (Cursor × Score) :=
  (List.range' (k + 1) (x.length - k)).map fun a =>
    (⟨a, r⟩, s.gridScore x y a r)

/-- All interior cells in row-major visit order, with their scores. -/
def Strategy.visits (s : Strategy) (x y : List ℚ) : List (Cursor × Score) :=
  (List.range' 1 y.length).flatMap fun r => s.rowVisits x y r 0

section BasicLemmas

variable (s : Strategy) (x y : List ℚ)

theorem Strategy.gridScore_zero_zero : s.gridScore x y 0 0 = ((0 : ℚ) : Score) :=
  rfl

theorem Strategy.gridScore_zero_left (j : Nat) :
    s.gridScore x y 0 (j + 1) = ⊤ := rfl

theorem Strategy.gridScore_zero_right (i : Nat) :
    s.gridScore x y (i + 1) 0 = ⊤ := rfl

theorem Strategy.calculate_cell_score (a b : ℚ) (p : Score × Score × Score) :
    (s.calculate_cell a b p).score =
      s.total_score (((s.local_cost a b : ℚ) : Score) +
        min p.2.1 (min p.2.2 p.1)) := rfl

theorem Strategy.gridScore_succ_succ (i j : Nat) :
    s.gridScore x y (i + 1) (j + 1) = (s.gridCell x y (i + 1) (j + 1)).score := by
  cases i with
  | zero =>
    simp only [Strategy.gridScore, Strategy.gridRow, Strategy.gridRowAux,
      Strategy.gridCell, Nat.add_sub_cancel]
  | succ i =>
    simp only [Strategy.gridScore, Strategy.gridRow, Strategy.gridRowAux,
      Strategy.gridCell, Nat.add_sub_cancel]
    simp

theorem Strategy.total_score_mem (h : s.bounds.1 ≤ s.bounds.2) (v : Score) :
    s.bounds.1 ≤ s.total_score v ∧ s.total_score v ≤ s.bounds.2 := by
  unfold Strategy.total_score
  split
  · exact ⟨le_refl _, h⟩
  · split
    · exact ⟨h, le_refl _⟩
    · constructor
      · exact le_of_not_lt (by assumption)
      · exact le_of_not_lt (by assumption)

theorem Strategy.total_score_eq_self (v : Score) (h1 : s.bounds.1 ≤ v)
    (h2 : v ≤ s.bounds.2) : s.total_score v = v := by
  unfold Strategy.total_score
  rw [if_neg (not_lt.mpr h1), if_neg (not_lt.mpr h2)]

theorem Strategy.le_total_score_top (h : s.bounds.1 ≤ s.bounds.2) :
    s.bounds.2 ≤ s.total_score ⊤ := by
  unfold Strategy.total_score
  split
  · next h' => exact absurd h' not_top_lt
  · split
    · exact le_refl _
    · exact le_top

theorem Strategy.gridScore_interior_mem (h : s.bounds.1 ≤ s.bounds.2)
    (i j : Nat) :
    s.bounds.1 ≤ s.gridScore x y (i + 1) (j + 1) ∧
      s.gridScore x y (i + 1) (j + 1) ≤ s.bounds.2 := by
  rw [Strategy.gridScore_succ_succ, Strategy.gridCell,
    Strategy.calculate_cell_score]
  exact s.total_score_mem h _

/-- The interior recurrence reformulated the way the specification states
it: every predecessor read back through `total_score`, so that a `⊤` border
sentinel appears as the clamped upper bound rather than as infinity. -/
theorem Strategy.gridScore_clamped_recurrence (h : s.bounds.1 ≤ s.bounds.2)
    (i j : Nat) :
    s.gridScore x y (i + 1) (j + 1) =
      s.total_score (((s.local_cost (x.getD i 0) (y.getD j 0) : ℚ) : Score) +
        min (s.total_score (s.gridScore x y (i + 1) j))
          (min (s.total_score (s.gridScore x y i j))
            (s.total_score (s.gridScore x y i (j + 1))))) := by
  rw [Strategy.gridScore_succ_succ, Strategy.gridCell,
    Strategy.calculate_cell_score]
  simp only [Nat.add_sub_cancel]
  congr 2
  cases i with
  | zero =>
    cases j with
    | zero =>
      -- cell (1,1): predecessors ⊤, clamp 0, ⊤
      rw [s.gridScore_zero_right x y 0, s.gridScore_zero_zero x y,
        s.gridScore_zero_left x y 0]
      have h0 := s.total_score_mem h ((0 : ℚ) : Score)
      have htop := s.le_total_score_top h
      rw [if_pos rfl]
      have h1 : s.total_score (0 : Score) ≤ s.total_score ⊤ :=
        h0.2.trans htop
      apply le_antisymm <;> simp [le_inf_iff, inf_le_iff, h1]
    | succ j =>
      -- cell (1, j+2): insert interior, diagonal and delete are ⊤ borders
      rw [s.gridScore_zero_left x y j, s.gridScore_zero_left x y (j + 1)]
      have hins := s.gridScore_interior_mem x y h 0 j
      have htop := s.le_total_score_top h
      rw [if_pos rfl]
      rw [s.total_score_eq_self _ hins.1 hins.2]
      have h1 : s.gridScore x y (0 + 1) (j + 1) ≤ s.total_score ⊤ :=
        hins.2.trans htop
      apply le_antisymm <;> simp [le_inf_iff, inf_le_iff, h1]
  | succ i =>
    cases j with
    | zero =>
      -- cell (i+2, 1): insert and diagonal ⊤ borders, delete interior
      rw [s.gridScore_zero_right x y (i + 1), s.gridScore_zero_right x y i]
      have hdel := s.gridScore_interior_mem x y h i 0
      have htop := s.le_total_score_top h
      rw [if_neg (by simp)]
      rw [s.total_score_eq_self _ hdel.1 hdel.2]
      have h1 : s.gridScore x y (i + 1) (0 + 1) ≤ s.total_score ⊤ :=
        hdel.2.trans htop
      apply le_antisymm <;> simp [le_inf_iff, inf_le_iff, h1]
    | succ j =>
      -- cell (i+2, j+2): all three predecessors interior
      have hins := s.gridScore_interior_mem x y h (i + 1) j
      have hdia := s.gridScore_interior_mem x y h i j
      have hdel := s.gridScore_interior_mem x y h i (j + 1)
      rw [if_neg (by simp)]
      rw [s.total_score_eq_self _ hins.1 hins.2,
        s.total_score_eq_self _ hdia.1 hdia.2,
        s.total_score_eq_self _ hdel.1 hdel.2]
      apply le_antisymm <;> simp [le_inf_iff, inf_le_iff]

end BasicLemmas

section Simulation

variable (s : Strategy) (x y : List ℚ)

theorem drop_cons {l : List ℚ} {k : Nat} {a : ℚ} {t : List ℚ}
    (h : l.drop k = a :: t) :
    k < l.length ∧ l.getD k 0 = a ∧ t = l.drop (k + 1) := by
  have hk : k < l.length := by
    by_contra hle
    rw [List.drop_eq_nil_iff.mpr (by omega)] at h
    exact List.noConfusion h
  have h2 := List.drop_eq_getElem_cons (l := l) hk
  rw [h] at h2
  injection h2 with h3 h4
  exact ⟨hk, by rw [List.getD_eq_getElem l 0 hk, h3], h4⟩

theorem Strategy.rowSpec_update {k : Nat} (r : Nat) (hk : k < x.length) :
    Function.update (s.rowSpec x y r k) (k + 1) (s.gridScore x y (k + 1) r) =
      s.rowSpec x y r (k + 1) := by
  funext a
  rcases eq_or_ne a (k + 1) with rfl | ha
  · rw [Function.update_same]
    simp only [Strategy.rowSpec]
    rw [if_neg (by omega : ¬(k + 1 = 0 ∨ x.length < k + 1)),
      if_pos (le_refl (k + 1))]
  · rw [Function.update_noteq ha]
    simp only [Strategy.rowSpec]
    split_ifs <;> first | rfl | omega

theorem Strategy.matCells_update {j k : Nat} (hk : k < x.length)
    (hj : j < y.length) :
    Function.update (s.matCells x y (j + 1) k) ⟨k + 1, j + 1⟩
        (s.gridCell x y (k + 1) (j + 1)) =
      s.matCells x y (j + 1) (k + 1) := by
  funext c
  obtain ⟨cx, cy⟩ := c
  rcases eq_or_ne (Cursor.mk cx cy) ⟨k + 1, j + 1⟩ with he | hc
  · rw [he, Function.update_same]
    simp only [Strategy.matCells]
    split_ifs <;> first | rfl | omega | (simp_all <;> omega)
  · rw [Function.update_noteq hc]
    have hcc : ¬(cx = k + 1 ∧ cy = j + 1) := by
      rintro ⟨h1, h2⟩
      exact hc (by simp_all)
    simp only [Strategy.matCells]
    split_ifs <;> first | rfl | omega

theorem Strategy.matCells_of_ge {r k : Nat} (hk : x.length ≤ k) :
    s.matCells x y r k = s.matCells x y r x.length := by
  funext c
  obtain ⟨cx, cy⟩ := c
  simp only [Strategy.matCells]
  split_ifs <;> first | rfl | omega

theorem Strategy.rowSpec_of_ge {r k : Nat} (hk : x.length ≤ k) :
    s.rowSpec x y r k = s.rowSpec x y r x.length := by
  funext a
  simp only [Strategy.rowSpec]
  split_ifs <;> first | rfl | omega

theorem Strategy.matCells_step (j : Nat) :
    s.matCells x y j x.length = s.matCells x y (j + 1) 0 := by
  funext c
  obtain ⟨cx, cy⟩ := c
  simp only [Strategy.matCells]
  split_ifs <;> first | rfl | omega

theorem Strategy.rowSpec_step (j : Nat) :
    s.rowSpec x y j x.length = s.rowSpec x y (j + 1) 0 := by
  funext a
  simp only [Strategy.rowSpec]
  split_ifs <;> first | rfl | omega

theorem Strategy.rowSpec_init :
    s.rowSpec x y 0 x.length = fun _ => (⊤ : Score) := by
  funext a
  simp only [Strategy.rowSpec]
  split_ifs with h1 h2 <;>
    first
    | rfl
    | (obtain ⟨b, rfl⟩ : ∃ b, a = b + 1 := ⟨a - 1, by omega⟩; rfl)

theorem range'_sub_cons {k n : Nat} (hk : k < n) :
    List.range' (k + 1) (n - k) = (k + 1) :: List.range' (k + 2) (n - (k + 1)) := by
  rw [show n - k = (n - (k + 1)) + 1 from by omega, List.range'_succ]

/-- Invariant of the inner fill loop: starting from a state that has rows
`1..j` and the first `k` columns of row `j + 1` filled, running the loop
over the rest of `x` completes row `j + 1`, updates the anchor by folding
over the remaining visits of the row, and appends the remaining writes. -/
theorem Strategy.fillRow_spec (j : Nat) (hj : j < y.length) :
    ∀ (xs : List ℚ) (k : Nat), x.drop k = xs →
    ∀ (st : FillState) (ld : Score),
      st.matrix.cells = s.matCells x y (j + 1) k →
      st.row = s.rowSpec x y (j + 1) k →
      ld = s.diagSpec x y j k →
      (s.fillRow j (y.getD j 0) xs k st ld).matrix.cells =
          s.matCells x y (j + 1) x.length ∧
        (s.fillRow j (y.getD j 0) xs k st ld).row =
          s.rowSpec x y (j + 1) x.length ∧
        ((s.fillRow j (y.getD j 0) xs k st ld).score,
            (s.fillRow j (y.getD j 0) xs k st ld).cursor) =
          bestFold (st.score, st.cursor) (s.rowVisits x y (j + 1) k) ∧
        (s.fillRow j (y.getD j 0) xs k st ld).matrix.width =
          st.matrix.width ∧
        (s.fillRow j (y.getD j 0) xs k st ld).matrix.height =
          st.matrix.height ∧
        (s.fillRow j (y.getD j 0) xs k st ld).matrix.writes =
          st.matrix.writes ++
            (List.range' (k + 1) (x.length - k)).map
              (fun a => (⟨a, j + 1⟩ : Cursor)) := by
  intro xs
  induction xs with
  | nil =>
    intro k hxs st ld hm hrow hld
    have hk : x.length ≤ k := List.drop_eq_nil_iff.mp hxs
    have hsub : x.length - k = 0 := by omega
    refine ⟨?_, ?_, ?_, rfl, rfl, ?_⟩
    · show st.matrix.cells = _
      rw [hm, s.matCells_of_ge x y hk]
    · show st.row = _
      rw [hrow, s.rowSpec_of_ge x y hk]
    · show (st.score, st.cursor) = _
      rw [Strategy.rowVisits, hsub]
      rfl
    · show st.matrix.writes = _
      rw [hsub]
      simp
  | cons x_val xs ih =>
    intro k hxs st ld hm hrow hld
    obtain ⟨hklt, hxv, hxs'⟩ := drop_cons hxs
    have hrow_k1 : st.row (k + 1) = s.gridScore x y (k + 1) j := by
      rw [hrow]
      simp only [Strategy.rowSpec]
      rw [if_neg (by omega : ¬(k + 1 = 0 ∨ x.length < k + 1)),
        if_neg (by omega : ¬(k + 1 ≤ k))]
      simp
    have hcell : s.calculate_cell x_val (y.getD j 0)
        (st.row (k + 1), ld, st.row k) = s.gridCell x y (k + 1) (j + 1) := by
      rw [Strategy.gridCell, ← hxv]
      simp only [Nat.add_sub_cancel]
      have h2 : ld = (if k + 1 = 1 then s.total_score (s.gridScore x y k j)
          else s.gridScore x y k j) := by
        rw [hld]
        cases k with
        | zero => simp [Strategy.diagSpec]
        | succ k' => simp [Strategy.diagSpec]
      have h3 : st.row k = s.gridScore x y k (j + 1) := by
        rw [hrow]
        cases k with
        | zero => rfl
        | succ k' =>
          simp only [Strategy.rowSpec]
          rw [if_neg (by omega : ¬(k' + 1 = 0 ∨ x.length < k' + 1)),
            if_pos (le_refl (k' + 1))]
      rw [hrow_k1, h2, h3]
    have hcs : (s.calculate_cell x_val (y.getD j 0)
        (st.row (k + 1), ld, st.row k)).score =
        s.gridScore x y (k + 1) (j + 1) := by
      rw [hcell]
      exact (s.gridScore_succ_succ x y k j).symm
    have hm' : (st.matrix.set ⟨k + 1, j + 1⟩
        (s.calculate_cell x_val (y.getD j 0)
          (st.row (k + 1), ld, st.row k))).cells =
        s.matCells x y (j + 1) (k + 1) := by
      show Function.update st.matrix.cells ⟨k + 1, j + 1⟩ _ = _
      rw [hm, hcell]
      exact s.matCells_update x y hklt hj
    have hrow' : Function.update st.row (k + 1)
        (s.calculate_cell x_val (y.getD j 0)
          (st.row (k + 1), ld, st.row k)).score =
        s.rowSpec x y (j + 1) (k + 1) := by
      rw [hcs, hrow]
      exact s.rowSpec_update x y (j + 1) hklt
    have hld' : st.row (k + 1) = s.diagSpec x y j (k + 1) := by
      rw [hrow_k1]
      simp [Strategy.diagSpec]
    obtain ⟨c1, c2, c3, c4, c5, c6⟩ := ih (k + 1) hxs'.symm
      ⟨st.matrix.set ⟨k + 1, j + 1⟩
          (s.calculate_cell x_val (y.getD j 0)
            (st.row (k + 1), ld, st.row k)),
        Function.update st.row (k + 1)
          (s.calculate_cell x_val (y.getD j 0)
            (st.row (k + 1), ld, st.row k)).score,
        (bestStep (st.score, st.cursor)
          (⟨k + 1, j + 1⟩,
            (s.calculate_cell x_val (y.getD j 0)
              (st.row (k + 1), ld, st.row k)).score)).1,
        (bestStep (st.score, st.cursor)
          (⟨k + 1, j + 1⟩,
            (s.calculate_cell x_val (y.getD j 0)
              (st.row (k + 1), ld, st.row k)).score)).2⟩
      (st.row (k + 1)) hm' hrow' hld'
    have hrv : s.rowVisits x y (j + 1) k =
        (⟨k + 1, j + 1⟩, s.gridScore x y (k + 1) (j + 1)) ::
          s.rowVisits x y (j + 1) (k + 1) := by
      rw [Strategy.rowVisits, Strategy.rowVisits, range'_sub_cons hklt,
        List.map_cons]
    refine ⟨?_, ?_, ?_, ?_, ?_, ?_⟩
    · exact c1
    · exact c2
    · rw [hrv, ← hcs]
      exact c3
    · exact c4
    · exact c5
    · rw [range'_sub_cons hklt, List.map_cons, List.append_cons]
      exact c6

/-- The interior cells of rows `j + 1` and later, in visit order. -/
def Strategy.visitsFrom (s : Strategy) (x y : List ℚ) (j : Nat) :
    List (Cursor × Score) :=
  (List.range' (j + 1) (y.length - j)).flatMap fun r => s.rowVisits x y r 0

theorem bestFold_append (p : Score × Cursor) (l1 l2 : List (Cursor × Score)) :
    bestFold p (l1 ++ l2) = bestFold (bestFold p l1) l2 :=
  List.foldl_append _ _ _ _

theorem Strategy.matCells_of_row_ge {r : Nat} (hr : y.length ≤ r) :
    s.matCells x y r x.length = s.matCells x y y.length x.length := by
  funext c
  obtain ⟨cx, cy⟩ := c
  simp only [Strategy.matCells]
  split_ifs <;> first | rfl | omega

theorem Strategy.visitsFrom_cons {j : Nat} (hj : j < y.length) :
    s.visitsFrom x y j =
      s.rowVisits x y (j + 1) 0 ++ s.visitsFrom x y (j + 1) := by
  rw [Strategy.visitsFrom, Strategy.visitsFrom, range'_sub_cons hj,
    List.flatMap_cons]

/-- Invariant of the outer fill loop: starting from a state with rows
`1..j` filled, running the loop over the rest of `y` completes the grid,
folds the anchor over all remaining visits, and appends the remaining
writes row by row. -/
theorem Strategy.fillRows_spec :
    ∀ (ys : List ℚ) (j : Nat), y.drop j = ys →
    ∀ (st : FillState),
      st.matrix.cells = s.matCells x y j x.length →
      st.row = s.rowSpec x y j x.length →
      (s.fillRows x ys j st).matrix.cells =
          s.matCells x y y.length x.length ∧
        ((s.fillRows x ys j st).score, (s.fillRows x ys j st).cursor) =
          bestFold (st.score, st.cursor) (s.visitsFrom x y j) ∧
        (s.fillRows x ys j st).matrix.width = st.matrix.width ∧
        (s.fillRows x ys j st).matrix.height = st.matrix.height ∧
        (s.fillRows x ys j st).matrix.writes =
          st.matrix.writes ++
            (List.range' (j + 1) (y.length - j)).flatMap
              (fun r => (List.range' 1 x.length).map
                fun a => (⟨a, r⟩ : Cursor)) := by
  intro ys
  induction ys with
  | nil =>
    intro j hys st hm hrow
    have hj : y.length ≤ j := List.drop_eq_nil_iff.mp hys
    have hsub : y.length - j = 0 := by omega
    refine ⟨?_, ?_, rfl, rfl, ?_⟩
    · show st.matrix.cells = _
      rw [hm, s.matCells_of_row_ge x y hj]
    · show (st.score, st.cursor) = _
      rw [Strategy.visitsFrom, hsub]
      rfl
    · show st.matrix.writes = _
      rw [hsub]
      simp
  | cons y_val ys ih =>
    intro j hys st hm hrow
    obtain ⟨hjlt, hyv, hys'⟩ := drop_cons hys
    subst hyv
    have hld0 : s.total_score
        (if j = 0 then ((0 : ℚ) : Score)
         else (st.matrix.cell ⟨0, j⟩).score) = s.diagSpec x y j 0 := by
      cases j with
      | zero => rfl
      | succ j' =>
        have hcellv : st.matrix.cell ⟨0, j' + 1⟩ =
            MatrixCell.new ⊤ StepMask.INSERT := by
          show st.matrix.cells ⟨0, j' + 1⟩ = _
          rw [hm]
          simp only [Strategy.matCells]
          rw [if_pos trivial, if_neg (Nat.succ_ne_zero j'),
            if_pos (by omega : j' + 1 ≤ y.length)]
        rw [if_neg (Nat.succ_ne_zero j'), hcellv]
        simp [Strategy.diagSpec, MatrixCell.new, Strategy.gridScore_zero_left]
    obtain ⟨f1, f2, f3, f4, f5, f6⟩ :=
      s.fillRow_spec x y j hjlt x 0 rfl st
        (s.total_score
          (if j = 0 then ((0 : ℚ) : Score)
           else (st.matrix.cell ⟨0, j⟩).score))
        (hm.trans (s.matCells_step x y j))
        (hrow.trans (s.rowSpec_step x y j)) hld0
    obtain ⟨c1, c2, c3, c4, c5⟩ := ih (j + 1) hys'.symm
      (s.fillRow j (y.getD j 0) x 0 st
        (s.total_score
          (if j = 0 then ((0 : ℚ) : Score)
           else (st.matrix.cell ⟨0, j⟩).score)))
      f1 f2
    have f6' : (s.fillRow j (y.getD j 0) x 0 st
        (s.total_score
          (if j = 0 then ((0 : ℚ) : Score)
           else (st.matrix.cell ⟨0, j⟩).score))).matrix.writes =
        st.matrix.writes ++
          (List.range' 1 x.length).map (fun a => (⟨a, j + 1⟩ : Cursor)) := by
      simpa using f6
    refine ⟨?_, ?_, ?_, ?_, ?_⟩
    · exact c1
    · rw [s.visitsFrom_cons x y hjlt, bestFold_append, ← f3]
      exact c2
    · exact c3.trans f4
    · exact c4.trans f5
    · rw [range'_sub_cons hjlt, List.flatMap_cons, ← List.append_assoc,
        ← f6']
      exact c5

theorem foldl_set_frame (f : Nat → Cursor) (cell : MatrixCell) :
    ∀ (l : List Nat) (m : Matrix),
      (l.foldl (fun m i => m.set (f i) cell) m).width = m.width ∧
        (l.foldl (fun m i => m.set (f i) cell) m).height = m.height ∧
        (l.foldl (fun m i => m.set (f i) cell) m).writes =
          m.writes ++ l.map f := by
  intro l
  induction l with
  | nil => intro m; exact ⟨rfl, rfl, by simp⟩
  | cons a t ih =>
    intro m
    obtain ⟨h1, h2, h3⟩ := ih (m.set (f a) cell)
    refine ⟨h1, h2, ?_⟩
    rw [List.map_cons, List.append_cons]
    exact h3

theorem foldl_set_cells_of_not_mem (f : Nat → Cursor) (cell : MatrixCell) :
    ∀ (l : List Nat) (m : Matrix) (c : Cursor), c ∉ l.map f →
      (l.foldl (fun m i => m.set (f i) cell) m).cells c = m.cells c := by
  intro l
  induction l with
  | nil => intro m c _; rfl
  | cons a t ih =>
    intro m c hc
    rw [List.map_cons, List.mem_cons] at hc
    push_neg at hc
    rw [List.foldl_cons, ih (m.set (f a) cell) c hc.2]
    exact Function.update_noteq hc.1 _ _

theorem foldl_set_cells_of_mem (f : Nat → Cursor) (cell : MatrixCell) :
    ∀ (l : List Nat) (m : Matrix) (c : Cursor), c ∈ l.map f →
      (l.foldl (fun m i => m.set (f i) cell) m).cells c = cell := by
  intro l
  induction l with
  | nil => intro m c hc; exact absurd hc (by simp)
  | cons a t ih =>
    intro m c hc
    rw [List.foldl_cons]
    by_cases ht : c ∈ t.map f
    · exact ih _ c ht
    · have hfa : c = f a := by
        rw [List.map_cons, List.mem_cons] at hc
        tauto
      rw [foldl_set_cells_of_not_mem f cell t _ c ht, hfa]
      exact Function.update_same _ _ _

theorem mem_map_cursor_col {cx cy n : Nat} :
    (Cursor.mk cx cy ∈ (List.range' 1 n).map fun yy => (⟨0, yy⟩ : Cursor)) ↔
      cx = 0 ∧ 1 ≤ cy ∧ cy < 1 + n := by
  rw [List.mem_map]
  constructor
  · rintro ⟨a, ha, he⟩
    rw [List.mem_range'_1] at ha
    injection he with h1 h2
    omega
  · rintro ⟨rfl, h1, h2⟩
    exact ⟨cy, List.mem_range'_1.mpr ⟨h1, h2⟩, rfl⟩

theorem mem_map_cursor_row {cx cy n : Nat} :
    (Cursor.mk cx cy ∈ (List.range' 1 n).map fun xx => (⟨xx, 0⟩ : Cursor)) ↔
      cy = 0 ∧ 1 ≤ cx ∧ cx < 1 + n := by
  rw [List.mem_map]
  constructor
  · rintro ⟨a, ha, he⟩
    rw [List.mem_range'_1] at ha
    injection he with h1 h2
    omega
  · rintro ⟨rfl, h1, h2⟩
    exact ⟨cx, List.mem_range'_1.mpr ⟨h1, h2⟩, rfl⟩

/-- After border seeding, the grid holds exactly the row-`0` description
of `matCells`. -/
theorem Strategy.seeded_cells :
    ((List.range' 1 x.length).foldl
        (fun m xx => m.set ⟨xx, 0⟩ (MatrixCell.new ⊤ StepMask.DELETE))
        ((List.range' 1 y.length).foldl
          (fun m yy => m.set ⟨0, yy⟩ (MatrixCell.new ⊤ StepMask.INSERT))
          (Matrix.new (x.length + 1) (y.length + 1)))).cells =
      s.matCells x y 0 x.length := by
  funext c
  obtain ⟨cx, cy⟩ := c
  by_cases hrow0 : cy = 0 ∧ 1 ≤ cx ∧ cx ≤ x.length
  · rw [foldl_set_cells_of_mem _ _ _ _ _
        (mem_map_cursor_row.mpr ⟨hrow0.1, hrow0.2.1, by omega⟩)]
    simp only [Strategy.matCells]
    split_ifs <;> first | rfl | omega
  · rw [foldl_set_cells_of_not_mem _ _ _ _ _
        (fun hmem => hrow0 (by
          obtain ⟨h1, h2, h3⟩ := mem_map_cursor_row.mp hmem
          exact ⟨h1, h2, by omega⟩))]
    by_cases hcol0 : cx = 0 ∧ 1 ≤ cy ∧ cy ≤ y.length
    · rw [foldl_set_cells_of_mem _ _ _ _ _
          (mem_map_cursor_col.mpr ⟨hcol0.1, hcol0.2.1, by omega⟩)]
      simp only [Strategy.matCells]
      split_ifs <;> first | rfl | omega
    · rw [foldl_set_cells_of_not_mem _ _ _ _ _
          (fun hmem => hcol0 (by
            obtain ⟨h1, h2, h3⟩ := mem_map_cursor_col.mp hmem
            exact ⟨h1, h2, by omega⟩))]
      show defaultCell = _
      simp only [Strategy.matCells]
      split_ifs <;> first | rfl | omega

/-- Full characterization of `alignment_set`: the returned grid holds the
border seeds and the recurrence scores, the best score and cursor are the
fold of the strict-improvement update over the row-major interior visits
starting from `(f64::MAX, (1,1))`, the grid is `(len x + 1) × (len y + 1)`,
and the write log is the origin default, the two borders, then the interior
cells in row-major order. -/
theorem Strategy.alignment_set_spec :
    (s.alignment_set x y).matrix.cells = s.matCells x y y.length x.length ∧
      ((s.alignment_set x y).score, (s.alignment_set x y).cursor) =
        bestFold (((fMAX : ℚ) : Score), (⟨1, 1⟩ : Cursor)) (s.visits x y) ∧
      (s.alignment_set x y).matrix.width = x.length + 1 ∧
      (s.alignment_set x y).matrix.height = y.length + 1 ∧
      (s.alignment_set x y).matrix.writes =
        ⟨0, 0⟩ :: (((List.range' 1 y.length).map fun yy => (⟨0, yy⟩ : Cursor)) ++
          (((List.range' 1 x.length).map fun xx => (⟨xx, 0⟩ : Cursor)) ++
            ((List.range' 1 y.length).flatMap fun r =>
              (List.range' 1 x.length).map fun a => (⟨a, r⟩ : Cursor)))) := by
  obtain ⟨c1, c2, c3, c4, c5⟩ :=
    s.fillRows_spec x y y 0 rfl
      ⟨(List.range' 1 x.length).foldl
          (fun m xx => m.set ⟨xx, 0⟩ (MatrixCell.new ⊤ StepMask.DELETE))
          ((List.range' 1 y.length).foldl
            (fun m yy => m.set ⟨0, yy⟩ (MatrixCell.new ⊤ StepMask.INSERT))
            (Matrix.new (x.length + 1) (y.length + 1))),
        fun _ => ⊤, ((fMAX : ℚ) : Score), ⟨1, 1⟩⟩
      (s.seeded_cells x y) (s.rowSpec_init x y).symm
  obtain ⟨w1, w2, w3⟩ := foldl_set_frame (fun xx => (⟨xx, 0⟩ : Cursor))
      (MatrixCell.new ⊤ StepMask.DELETE) (List.range' 1 x.length)
      ((List.range' 1 y.length).foldl
        (fun m yy => m.set ⟨0, yy⟩ (MatrixCell.new ⊤ StepMask.INSERT))
        (Matrix.new (x.length + 1) (y.length + 1)))
  obtain ⟨v1, v2, v3⟩ := foldl_set_frame (fun yy => (⟨0, yy⟩ : Cursor))
      (MatrixCell.new ⊤ StepMask.INSERT) (List.range' 1 y.length)
      (Matrix.new (x.length + 1) (y.length + 1))
  refine ⟨c1, c2, c3.trans (w1.trans v1), c4.trans (w2.trans v2), ?_⟩
  refine c5.trans ?_
  show ((List.range' 1 x.length).foldl
      (fun m xx => m.set ⟨xx, 0⟩ (MatrixCell.new ⊤ StepMask.DELETE))
      ((List.range' 1 y.length).foldl
        (fun m yy => m.set ⟨0, yy⟩ (MatrixCell.new ⊤ StepMask.INSERT))
        (Matrix.new (x.length + 1) (y.length + 1)))).writes ++
    ((List.range' 1 y.length).flatMap fun r =>
      (List.range' 1 x.length).map fun a => (⟨a, r⟩ : Cursor)) = _
  rw [w3, v3]
  simp [Matrix.new, List.append_assoc]

end Simulation

section AnchorLemmas

theorem fMAX_pos : (0 : ℚ) < fMAX := by norm_num [fMAX]

theorem bestFold_of_forall_le :
    ∀ (l : List (Cursor × Score)) (b : Score) (c : Cursor),
      (∀ v ∈ l, b ≤ v.2) → bestFold (b, c) l = (b, c) := by
  intro l
  induction l with
  | nil => intro b c _; rfl
  | cons a t ih =>
    intro b c h
    have hstep : bestStep (b, c) a = (b, c) :=
      if_neg (not_lt.mpr (h a (List.mem_cons_self a t)))
    show bestFold (bestStep (b, c) a) t = (b, c)
    rw [hstep]
    exact ih b c fun v hv => h v (List.mem_cons_of_mem a hv)

theorem bestFold_first_min :
    ∀ (l : List (Cursor × Score)) (b : Score) (c : Cursor),
      (∃ v ∈ l, v.2 < b) →
      ∃ l1 v l2, l = l1 ++ v :: l2 ∧ bestFold (b, c) l = (v.2, v.1) ∧
        (∀ u ∈ l1, v.2 < u.2) ∧ (∀ u ∈ l, v.2 ≤ u.2) ∧ v.2 < b := by
  intro l
  induction l with
  | nil => rintro b c ⟨v, hv, _⟩; exact absurd hv (by simp)
  | cons a t ih =>
    intro b c hex
    by_cases ha : a.2 < b
    · have hstep : bestFold (b, c) (a :: t) = bestFold (a.2, a.1) t := by
        show bestFold (bestStep (b, c) a) t = _
        rw [bestStep, if_pos ha]
      by_cases h2 : ∃ w ∈ t, w.2 < a.2
      · obtain ⟨l1, v, l2, hl, hf, h3, h4, h5⟩ := ih a.2 a.1 h2
        refine ⟨a :: l1, v, l2, by rw [hl, List.cons_append], hstep.trans hf,
          ?_, ?_, h5.trans ha⟩
        · intro u hu
          rcases List.mem_cons.mp hu with rfl | hu
          · exact h5
          · exact h3 u hu
        · intro u hu
          rcases List.mem_cons.mp hu with rfl | hu
          · exact le_of_lt h5
          · exact h4 u hu
      · push_neg at h2
        refine ⟨[], a, t, rfl, hstep.trans (bestFold_of_forall_le t a.2 a.1 h2),
          by simp, ?_, ha⟩
        intro u hu
        rcases List.mem_cons.mp hu with rfl | hu
        · exact le_refl _
        · exact h2 u hu
    · have hstep : bestFold (b, c) (a :: t) = bestFold (b, c) t := by
        show bestFold (bestStep (b, c) a) t = _
        rw [bestStep, if_neg ha]
      have hex' : ∃ w ∈ t, w.2 < b := by
        obtain ⟨v, hv, hvb⟩ := hex
        rcases List.mem_cons.mp hv with rfl | hv
        · exact absurd hvb ha
        · exact ⟨v, hv, hvb⟩
      obtain ⟨l1, v, l2, hl, hf, h3, h4, h5⟩ := ih b c hex'
      refine ⟨a :: l1, v, l2, by rw [hl, List.cons_append], hstep.trans hf,
        ?_, ?_, h5⟩
      · intro u hu
        rcases List.mem_cons.mp hu with rfl | hu
        · exact lt_of_lt_of_le h5 (not_lt.mp ha)
        · exact h3 u hu
      · intro u hu
        rcases List.mem_cons.mp hu with rfl | hu
        · exact le_of_lt (lt_of_lt_of_le h5 (not_lt.mp ha))
        · exact h4 u hu

variable (s : Strategy) (x y : List ℚ)

/-- Every recorded visit is an interior cell `(a, r)` with `1 ≤ a ≤ len x`,
`1 ≤ r ≤ len y`, carrying its grid score. -/
theorem Strategy.visits_mem {v : Cursor × Score} (hv : v ∈ s.visits x y) :
    ∃ a r, 1 ≤ a ∧ a ≤ x.length ∧ 1 ≤ r ∧ r ≤ y.length ∧
      v = (⟨a, r⟩, s.gridScore x y a r) := by
  rw [Strategy.visits] at hv
  rw [List.mem_flatMap] at hv
  obtain ⟨r, hr, hmem⟩ := hv
  rw [List.mem_range'_1] at hr
  rw [Strategy.rowVisits, List.mem_map] at hmem
  obtain ⟨a, ha, rfl⟩ := hmem
  rw [List.mem_range'_1] at ha
  exact ⟨a, r, by omega, by omega, by omega, by omega, rfl⟩

theorem Strategy.visits_scores (hb : s.bounds.1 ≤ s.bounds.2)
    {v : Cursor × Score} (hv : v ∈ s.visits x y) :
    s.bounds.1 ≤ v.2 ∧ v.2 ≤ s.bounds.2 := by
  obtain ⟨a, r, ha1, _, hr1, _, rfl⟩ := s.visits_mem x y hv
  obtain ⟨a', rfl⟩ : ∃ a', a = a' + 1 := ⟨a - 1, by omega⟩
  obtain ⟨r', rfl⟩ : ∃ r', r = r' + 1 := ⟨r - 1, by omega⟩
  exact s.gridScore_interior_mem x y hb a' r'

theorem Strategy.visits_cons (hx : x ≠ []) (hy : y ≠ []) :
    ∃ tl, s.visits x y = (⟨1, 1⟩, s.gridScore x y 1 1) :: tl := by
  obtain ⟨a, x', rfl⟩ := List.exists_cons_of_ne_nil hx
  obtain ⟨b, y', rfl⟩ := List.exists_cons_of_ne_nil hy
  rw [Strategy.visits, List.length_cons, List.range'_succ, List.flatMap_cons,
    Strategy.rowVisits, Nat.sub_zero, List.length_cons, List.range'_succ,
    List.map_cons, List.cons_append]
  exact ⟨_, rfl⟩

/-- The score at the matching position of the final grid description. -/
theorem Strategy.matCells_score {a b : Nat} (ha : a ≤ x.length)
    (hb : b ≤ y.length) :
    (s.matCells x y y.length x.length ⟨a, b⟩).score = s.gridScore x y a b := by
  cases a with
  | zero =>
    cases b with
    | zero => rfl
    | succ b' =>
      rw [Strategy.matCells]
      rw [if_pos rfl, if_neg (Nat.succ_ne_zero b'), if_pos (by omega)]
      rfl
  | succ a' =>
    cases b with
    | zero =>
      rw [Strategy.matCells]
      rw [if_neg (Nat.succ_ne_zero a'), if_pos rfl, if_pos (by omega)]
      rfl
    | succ b' =>
      rw [Strategy.matCells]
      rw [if_neg (Nat.succ_ne_zero a'), if_neg (Nat.succ_ne_zero b'),
        if_pos ⟨by omega, by omega, by omega⟩]
      exact (s.gridScore_succ_succ x y a' b').symm

end AnchorLemmas

section CellAccess

variable (s : Strategy) (x y : List ℚ)

/-- Reading any in-range position of the returned grid yields the
`matCells` description's score, i.e. the recurrence value `gridScore`. -/
theorem Strategy.alignment_cell_score {a b : Nat} (ha : a ≤ x.length)
    (hb : b ≤ y.length) :
    ((s.alignment_set x y).matrix.cell ⟨a, b⟩).score = s.gridScore x y a b := by
  show ((s.alignment_set x y).matrix.cells ⟨a, b⟩).score = _
  rw [(s.alignment_set_spec x y).1]
  exact s.matCells_score x y ha hb

end CellAccess

/-- C1: for every pair of sequences and interior position `(i, j)` with
`1 ≤ i ≤ len x`, `1 ≤ j ≤ len y` (and a genuine bound interval
`lo ≤ hi`), the score the returned grid stores at `(i, j)` is the local
cost of `(x[i-1], y[j-1])` plus the minimum of the three predecessor
scores at `(i, j-1)`, `(i-1, j-1)` and `(i-1, j)`, each predecessor read
back clamped into `score_bounds` (a border sentinel appears as the
clamped bound, not as infinity), with the sum itself then clamped. -/
theorem c1_interior_recurrence (s : Strategy) (x y : List ℚ)
    (hb : s.bounds.1 ≤ s.bounds.2) (i j : Nat)
    (hi1 : 1 ≤ i) (hiW : i ≤ x.length) (hj1 : 1 ≤ j) (hjH : j ≤ y.length) :
    ((s.alignment_set x y).matrix.cell ⟨i, j⟩).score =
      s.total_score
        (((s.local_cost (x.getD (i - 1) 0) (y.getD (j - 1) 0) : ℚ) : Score) +
          min (s.total_score
              ((s.alignment_set x y).matrix.cell ⟨i, j - 1⟩).score)
            (min (s.total_score
                ((s.alignment_set x y).matrix.cell ⟨i - 1, j - 1⟩).score)
              (s.total_score
                ((s.alignment_set x y).matrix.cell ⟨i - 1, j⟩).score))) := by
  obtain ⟨i', rfl⟩ : ∃ i', i = i' + 1 := ⟨i - 1, by omega⟩
  obtain ⟨j', rfl⟩ : ∃ j', j = j' + 1 := ⟨j - 1, by omega⟩
  simp only [Nat.add_sub_cancel]
  rw [s.alignment_cell_score x y hiW hjH,
    s.alignment_cell_score x y hiW (by omega : j' ≤ y.length),
    s.alignment_cell_score x y (by omega : i' ≤ x.length)
      (by omega : j' ≤ y.length),
    s.alignment_cell_score x y (by omega : i' ≤ x.length) hjH]
  exact s.gridScore_clamped_recurrence x y hb i' j'

theorem c1_interior_recurrence_witness :
    (Strategy.dynamic_time_warping.bounds.1 ≤
        Strategy.dynamic_time_warping.bounds.2) ∧
      ((Strategy.dynamic_time_warping.alignment_set [1] [2]).matrix.cell
          ⟨1, 1⟩).score =
        Strategy.dynamic_time_warping.total_score
          (((Strategy.dynamic_time_warping.local_cost
                ([(1 : ℚ)].getD 0 0) ([(2 : ℚ)].getD 0 0) : ℚ) : Score) +
            min (Strategy.dynamic_time_warping.total_score
                ((Strategy.dynamic_time_warping.alignment_set [1]
                    [2]).matrix.cell ⟨1, 0⟩).score)
              (min (Strategy.dynamic_time_warping.total_score
                  ((Strategy.dynamic_time_warping.alignment_set [1]
                      [2]).matrix.cell ⟨0, 0⟩).score)
                (Strategy.dynamic_time_warping.total_score
                  ((Strategy.dynamic_time_warping.alignment_set [1]
                      [2]).matrix.cell ⟨0, 1⟩).score))) :=
  ⟨WithTop.coe_le_coe.mpr (le_of_lt fMAX_pos),
    c1_interior_recurrence Strategy.dynamic_time_warping [1] [2]
      (WithTop.coe_le_coe.mpr (le_of_lt fMAX_pos)) 1 1 (by decide) (by decide)
      (by decide) (by decide)⟩

/-- C5: for every call with a genuine bound interval `lo ≤ hi`, the score
stored at every interior cell of the returned grid lies between `lo` and
`hi`. -/
theorem c5_clamp_invariant (s : Strategy) (x y : List ℚ)
    (hb : s.bounds.1 ≤ s.bounds.2) (i j : Nat)
    (hi1 : 1 ≤ i) (hiW : i ≤ x.length) (hj1 : 1 ≤ j) (hjH : j ≤ y.length) :
    s.bounds.1 ≤ ((s.alignment_set x y).matrix.cell ⟨i, j⟩).score ∧
      ((s.alignment_set x y).matrix.cell ⟨i, j⟩).score ≤ s.bounds.2 := by
  obtain ⟨i', rfl⟩ : ∃ i', i = i' + 1 := ⟨i - 1, by omega⟩
  obtain ⟨j', rfl⟩ : ∃ j', j = j' + 1 := ⟨j - 1, by omega⟩
  rw [s.alignment_cell_score x y hiW hjH]
  exact s.gridScore_interior_mem x y hb i' j'

theorem c5_clamp_invariant_witness :
    (Strategy.dynamic_time_warping.bounds.1 ≤
        Strategy.dynamic_time_warping.bounds.2) ∧
      (Strategy.dynamic_time_warping.bounds.1 ≤
          ((Strategy.dynamic_time_warping.alignment_set [1] [2]).matrix.cell
            ⟨1, 1⟩).score ∧
        ((Strategy.dynamic_time_warping.alignment_set [1] [2]).matrix.cell
            ⟨1, 1⟩).score ≤ Strategy.dynamic_time_warping.bounds.2) :=
  ⟨WithTop.coe_le_coe.mpr (le_of_lt fMAX_pos),
    c5_clamp_invariant Strategy.dynamic_time_warping [1] [2]
      (WithTop.coe_le_coe.mpr (le_of_lt fMAX_pos)) 1 1 (by decide) (by decide)
      (by decide) (by decide)⟩

/-- C6: in every returned grid — including grids with one empty input —
every border cell `(0, j)` with `1 ≤ j ≤ len y` is exactly the seeded
insert cell (mask consume-y-only, infinite sentinel score), and every
border cell `(i, 0)` with `1 ≤ i ≤ len x` is exactly the seeded delete
cell (mask consume-x-only, infinite sentinel score); neither is
overwritten by the fill.  The two border statements are independent: each
needs only its own side's index to be in range. -/
theorem c6_border_cells (s : Strategy) (x y : List ℚ) :
    (∀ j, 1 ≤ j → j ≤ y.length →
      ((s.alignment_set x y).matrix.cell ⟨0, j⟩).mask = StepMask.INSERT ∧
        ((s.alignment_set x y).matrix.cell ⟨0, j⟩).score = ⊤) ∧
      ∀ i, 1 ≤ i → i ≤ x.length →
        ((s.alignment_set x y).matrix.cell ⟨i, 0⟩).mask = StepMask.DELETE ∧
          ((s.alignment_set x y).matrix.cell ⟨i, 0⟩).score = ⊤ := by
  constructor
  · intro j hj1 hjH
    obtain ⟨j', rfl⟩ : ∃ j', j = j' + 1 := ⟨j - 1, by omega⟩
    have h1 : (s.alignment_set x y).matrix.cell ⟨0, j' + 1⟩ =
        MatrixCell.new ⊤ StepMask.INSERT := by
      show (s.alignment_set x y).matrix.cells ⟨0, j' + 1⟩ = _
      rw [(s.alignment_set_spec x y).1, Strategy.matCells]
      rw [if_pos rfl, if_neg (Nat.succ_ne_zero j'), if_pos hjH]
    rw [h1]
    exact ⟨rfl, rfl⟩
  · intro i hi1 hiW
    obtain ⟨i', rfl⟩ : ∃ i', i = i' + 1 := ⟨i - 1, by omega⟩
    have h2 : (s.alignment_set x y).matrix.cell ⟨i' + 1, 0⟩ =
        MatrixCell.new ⊤ StepMask.DELETE := by
      show (s.alignment_set x y).matrix.cells ⟨i' + 1, 0⟩ = _
      rw [(s.alignment_set_spec x y).1, Strategy.matCells]
      rw [if_neg (Nat.succ_ne_zero i'), if_pos rfl, if_pos hiW]
    rw [h2]
    exact ⟨rfl, rfl⟩

theorem c6_border_cells_witness :
    (((Strategy.dynamic_time_warping.alignment_set [] [5]).matrix.cell
          ⟨0, 1⟩).mask = StepMask.INSERT ∧
        ((Strategy.dynamic_time_warping.alignment_set [] [5]).matrix.cell
          ⟨0, 1⟩).score = ⊤) ∧
      ((Strategy.dynamic_time_warping.alignment_set [2] []).matrix.cell
          ⟨1, 0⟩).mask = StepMask.DELETE ∧
        ((Strategy.dynamic_time_warping.alignment_set [2] []).matrix.cell
          ⟨1, 0⟩).score = ⊤ :=
  ⟨(c6_border_cells Strategy.dynamic_time_warping [] [5]).1 1 (by decide)
      (by decide),
    (c6_border_cells Strategy.dynamic_time_warping [2] []).2 1 (by decide)
      (by decide)⟩

section Degenerate

theorem flatMap_nil_fun {α β : Type} (l : List α) :
    l.flatMap (fun _ => ([] : List β)) = [] := by
  induction l <;> simp_all

/-- With either input empty there are no interior cells to visit. -/
theorem Strategy.visits_nil (s : Strategy) (x y : List ℚ)
    (h : x = [] ∨ y = []) : s.visits x y = [] := by
  rcases h with rfl | rfl
  · rw [Strategy.visits]
    have hrv : (fun r => s.rowVisits [] y r 0) =
        fun _ => ([] : List (Cursor × Score)) := funext fun r => rfl
    rw [hrv, flatMap_nil_fun]
  · rfl

end Degenerate

/-- C10: whenever either input sequence is empty, the fill loops perform no
interior iteration and the call returns the initialization values: best
score `f64::MAX` and best position `(1, 1)`; when `x` is empty the grid has
width `1`, so the returned position lies outside the grid's addressable
x-range. -/
theorem c10_empty_inputs (s : Strategy) (x y : List ℚ)
    (h : x = [] ∨ y = []) :
    (s.alignment_set x y).score = ((fMAX : ℚ) : Score) ∧
      (s.alignment_set x y).cursor = ⟨1, 1⟩ ∧
      (x = [] → (s.alignment_set x y).matrix.width = 1 ∧
        (s.alignment_set x y).matrix.width ≤ (s.alignment_set x y).cursor.x) := by
  have hspec := (s.alignment_set_spec x y).2.1
  rw [s.visits_nil x y h] at hspec
  have hs : (s.alignment_set x y).score = ((fMAX : ℚ) : Score) :=
    congrArg Prod.fst hspec
  have hc : (s.alignment_set x y).cursor = (⟨1, 1⟩ : Cursor) :=
    congrArg Prod.snd hspec
  refine ⟨hs, hc, ?_⟩
  rintro rfl
  have hw := (s.alignment_set_spec [] y).2.2.1
  rw [List.length_nil] at hw
  exact ⟨hw, by rw [hw, hc]⟩

theorem c10_empty_inputs_witness :
    (([] : List ℚ) = [] ∨ ([(5 : ℚ)] : List ℚ) = []) ∧
      ((Strategy.dynamic_time_warping.alignment_set [] [5]).score =
          ((fMAX : ℚ) : Score) ∧
        (Strategy.dynamic_time_warping.alignment_set [] [5]).cursor = ⟨1, 1⟩ ∧
        (([] : List ℚ) = [] →
          (Strategy.dynamic_time_warping.alignment_set [] [5]).matrix.width =
              1 ∧
            (Strategy.dynamic_time_warping.alignment_set [] [5]).matrix.width ≤
              (Strategy.dynamic_time_warping.alignment_set
                [] [5]).cursor.x)) :=
  ⟨Or.inl rfl,
    c10_empty_inputs Strategy.dynamic_time_warping [] [5] (Or.inl rfl)⟩

/-- C3 (corrected): for empty `x` the grid is `1 × (len y + 1)` and every
cell of it is the origin default or a seeded border, but the returned best
score is the untouched initialization value `f64::MAX` — not the clamped
sentinel — and the anchor is the initialization position `(1, 1)`,
not `(0, 0)`. -/
theorem c3_empty_x_amended (s : Strategy) (y : List ℚ) (hy : y ≠ []) :
    (s.alignment_set [] y).matrix.width = 1 ∧
      (s.alignment_set [] y).matrix.height = y.length + 1 ∧
      (∀ j, 1 ≤ j → j ≤ y.length →
        (s.alignment_set [] y).matrix.cell ⟨0, j⟩ =
          MatrixCell.new ⊤ StepMask.INSERT) ∧
      (s.alignment_set [] y).score = ((fMAX : ℚ) : Score) ∧
      (s.alignment_set [] y).cursor = ⟨1, 1⟩ := by
  have hspec := (s.alignment_set_spec [] y).2.1
  rw [s.visits_nil [] y (Or.inl rfl)] at hspec
  have hw := (s.alignment_set_spec [] y).2.2.1
  rw [List.length_nil] at hw
  refine ⟨hw, (s.alignment_set_spec [] y).2.2.2.1, ?_,
    congrArg Prod.fst hspec, congrArg Prod.snd hspec⟩
  intro j hj1 hjH
  obtain ⟨j', rfl⟩ : ∃ j', j = j' + 1 := ⟨j - 1, by omega⟩
  show (s.alignment_set [] y).matrix.cells ⟨0, j' + 1⟩ = _
  rw [(s.alignment_set_spec [] y).1, Strategy.matCells]
  rw [if_pos rfl, if_neg (Nat.succ_ne_zero j'), if_pos hjH]

theorem c3_empty_x_amended_witness :
    (([(5 : ℚ)] : List ℚ) ≠ []) ∧
      ((Strategy.dynamic_time_warping.alignment_set [] [5]).matrix.width = 1 ∧
        (Strategy.dynamic_time_warping.alignment_set
            [] [5]).matrix.height = [(5 : ℚ)].length + 1 ∧
        (∀ j, 1 ≤ j → j ≤ [(5 : ℚ)].length →
          (Strategy.dynamic_time_warping.alignment_set [] [5]).matrix.cell
              ⟨0, j⟩ = MatrixCell.new ⊤ StepMask.INSERT) ∧
        (Strategy.dynamic_time_warping.alignment_set [] [5]).score =
          ((fMAX : ℚ) : Score) ∧
        (Strategy.dynamic_time_warping.alignment_set [] [5]).cursor =
          ⟨1, 1⟩) :=
  ⟨List.cons_ne_nil 5 [],
    c3_empty_x_amended Strategy.dynamic_time_warping [5]
      (List.cons_ne_nil 5 [])⟩

/-- C3 (counterexample): with bounds `[0, 7]`, empty `x` and `y = [5]`, the
returned anchor is `(1, 1)`, not `(0, 0)`, and the returned best score is
`f64::MAX` — neither the seeded sentinel clamped to `hi = 7` nor `0`. -/
theorem c3_empty_x_counterexample :
    ((Strategy.new 1 1 0 (((0 : ℚ) : Score), ((7 : ℚ) : Score))).alignment_set
        [] [5]).cursor = ⟨1, 1⟩ ∧
      ((Strategy.new 1 1 0 (((0 : ℚ) : Score),
          ((7 : ℚ) : Score))).alignment_set [] [5]).cursor ≠ ⟨0, 0⟩ ∧
      ((Strategy.new 1 1 0 (((0 : ℚ) : Score),
          ((7 : ℚ) : Score))).alignment_set [] [5]).score =
        ((fMAX : ℚ) : Score) ∧
      ((Strategy.new 1 1 0 (((0 : ℚ) : Score),
          ((7 : ℚ) : Score))).alignment_set [] [5]).score ≠
        ((7 : ℚ) : Score) ∧
      ((Strategy.new 1 1 0 (((0 : ℚ) : Score),
          ((7 : ℚ) : Score))).alignment_set [] [5]).score ≠
        ((0 : ℚ) : Score) := by
  have hspec := ((Strategy.new 1 1 0 (((0 : ℚ) : Score),
      ((7 : ℚ) : Score))).alignment_set_spec [] [5]).2.1
  rw [Strategy.visits_nil _ [] [5] (Or.inl rfl)] at hspec
  have hs : ((Strategy.new 1 1 0 (((0 : ℚ) : Score),
      ((7 : ℚ) : Score))).alignment_set [] [5]).score =
      ((fMAX : ℚ) : Score) := congrArg Prod.fst hspec
  have hc : ((Strategy.new 1 1 0 (((0 : ℚ) : Score),
      ((7 : ℚ) : Score))).alignment_set [] [5]).cursor =
      (⟨1, 1⟩ : Cursor) := congrArg Prod.snd hspec
  refine ⟨hc, ?_, hs, ?_, ?_⟩
  · rw [hc]
    intro h
    exact absurd (congrArg Cursor.x h) (by decide)
  · rw [hs]
    intro h
    exact absurd (WithTop.coe_inj.mp h) (by norm_num [fMAX])
  · rw [hs]
    intro h
    exact absurd (WithTop.coe_inj.mp h) (by norm_num [fMAX])

section DtwSelf

theorem dtw_bounds_le :
    Strategy.dynamic_time_warping.bounds.1 ≤
      Strategy.dynamic_time_warping.bounds.2 :=
  WithTop.coe_le_coe.mpr (le_of_lt fMAX_pos)

/-- Under the DTW preset, the very first interior cell of an alignment of a
sequence against itself scores `0`: its local cost is `0` and its only
non-sentinel predecessor is the clamped origin `0`. -/
theorem dtw_gridScore_one_one (x y : List ℚ) (hxy : x.getD 0 0 = y.getD 0 0) :
    Strategy.dynamic_time_warping.gridScore x y 1 1 = ((0 : ℚ) : Score) := by
  have hnot : ¬(((fMAX : ℚ) : Score) < ((0 : ℚ) : Score)) := by
    rw [WithTop.coe_lt_coe]
    norm_num [fMAX]
  have hfm : ¬((fMAX : ℚ) < 0) := by norm_num [fMAX]
  have hnot2 : ¬(((fMAX : ℚ) : Score) < 0) := by
    rw [show (0 : Score) = ((0 : ℚ) : Score) from rfl, WithTop.coe_lt_coe]
    exact hfm
  simp only [Strategy.gridScore, Strategy.gridRow, Strategy.gridRowAux,
    Strategy.calculate_cell, MatrixCell.from_scores, Strategy.local_cost,
    Strategy.total_score, Strategy.dynamic_time_warping, Strategy.new, hxy]
  simp [hnot, hfm, hnot2]

/-- Under the DTW preset, aligning a non-empty sequence against itself
returns best score `0` anchored at `(1, 1)`: the first visited interior
cell scores `0`, every interior score is clamped to at least `0`, and the
anchor is only replaced by strictly smaller scores. -/
theorem dtw_self_best (z : List ℚ) (hz : z ≠ []) :
    (Strategy.dynamic_time_warping.alignment_set z z).score =
        ((0 : ℚ) : Score) ∧
      (Strategy.dynamic_time_warping.alignment_set z z).cursor = ⟨1, 1⟩ := by
  obtain ⟨tl, htl⟩ := Strategy.dynamic_time_warping.visits_cons z z hz hz
  have hspec := (Strategy.dynamic_time_warping.alignment_set_spec z z).2.1
  rw [htl, dtw_gridScore_one_one z z rfl] at hspec
  have hlt : (((0 : ℚ) : Score)) < ((fMAX : ℚ) : Score) :=
    WithTop.coe_lt_coe.mpr fMAX_pos
  have hstep : bestFold (((fMAX : ℚ) : Score), (⟨1, 1⟩ : Cursor))
      (((⟨1, 1⟩ : Cursor), ((0 : ℚ) : Score)) :: tl) =
      bestFold (((0 : ℚ) : Score), (⟨1, 1⟩ : Cursor)) tl := by
    show bestFold (bestStep _ _) tl = _
    rw [bestStep, if_pos hlt]
  have hrest : bestFold (((0 : ℚ) : Score), (⟨1, 1⟩ : Cursor)) tl =
      (((0 : ℚ) : Score), (⟨1, 1⟩ : Cursor)) := by
    refine bestFold_of_forall_le tl _ _ fun v hv => ?_
    have hv' : v ∈ Strategy.dynamic_time_warping.visits z z := by
      rw [htl]
      exact List.mem_cons_of_mem _ hv
    exact (Strategy.dynamic_time_warping.visits_scores z z dtw_bounds_le
      hv').1
  rw [hstep, hrest] at hspec
  exact ⟨congrArg Prod.fst hspec, congrArg Prod.snd hspec⟩

end DtwSelf

/-- C2 (counterexample): aligning `x = [1, 2]` with `y = [1, 2]` under the
dynamic-time-warping preset does return best score `0`, but anchored at
position `(1, 1)` — the first interior cell — not at `(len, len) = (2, 2)`
as claimed. -/
theorem c2_identity_counterexample :
    (Strategy.dynamic_time_warping.alignment_set [1, 2] [1, 2]).score =
        ((0 : ℚ) : Score) ∧
      (Strategy.dynamic_time_warping.alignment_set [1, 2] [1, 2]).cursor =
        ⟨1, 1⟩ ∧
      (Strategy.dynamic_time_warping.alignment_set [1, 2] [1, 2]).cursor ≠
        ⟨2, 2⟩ :=
  ⟨(dtw_self_best [1, 2] (List.cons_ne_nil 1 [2])).1,
    (dtw_self_best [1, 2] (List.cons_ne_nil 1 [2])).2,
    fun h => absurd (congrArg Cursor.x
      (((dtw_self_best [1, 2] (List.cons_ne_nil 1 [2])).2).symm.trans h))
      (by decide)⟩

/-- C2 (amended): for every non-empty sequence `s`, aligning `s` against
itself with the dynamic-time-warping preset returns best score `0`,
anchored at position `(1, 1)` — the earliest-visited interior cell with the
minimum score; in particular `x = [1.0, 2.0]` against itself returns `0.0`
at `(1, 1)`. -/
theorem c2_identity_amended (z : List ℚ) (hz : z ≠ []) :
    (Strategy.dynamic_time_warping.alignment_set z z).score =
        ((0 : ℚ) : Score) ∧
      (Strategy.dynamic_time_warping.alignment_set z z).cursor = ⟨1, 1⟩ :=
  dtw_self_best z hz

theorem c2_identity_amended_witness :
    (([(1 : ℚ), 2] : List ℚ) ≠ []) ∧
      ((Strategy.dynamic_time_warping.alignment_set [1, 2] [1, 2]).score =
          ((0 : ℚ) : Score) ∧
        (Strategy.dynamic_time_warping.alignment_set [1, 2] [1, 2]).cursor =
          ⟨1, 1⟩) :=
  ⟨List.cons_ne_nil 1 [2],
    c2_identity_amended [1, 2] (List.cons_ne_nil 1 [2])⟩

/-- C4: with a genuine bound interval whose upper end is a finite double
(`hi ≤ f64::MAX`, as for every `RangeInclusive<f64>` with a non-infinite
end) and non-empty inputs, the returned anchor score is the minimum over
all interior cells, and the returned position is the one of the earliest
visit (row-major order) achieving it: the visit list splits as
`l1 ++ (cursor, score) :: l2` with every earlier visit scoring strictly
more.  The anchor is replaced only by strictly smaller scores, so ties
keep the earliest position. -/
theorem c4_anchor_first_min (s : Strategy) (x y : List ℚ)
    (hb : s.bounds.1 ≤ s.bounds.2) (hhi : s.bounds.2 ≤ ((fMAX : ℚ) : Score))
    (hx : x ≠ []) (hy : y ≠ []) :
    (∀ v ∈ s.visits x y, (s.alignment_set x y).score ≤ v.2) ∧
      ∃ l1 l2, s.visits x y =
          l1 ++ ((s.alignment_set x y).cursor,
            (s.alignment_set x y).score) :: l2 ∧
        ∀ u ∈ l1, (s.alignment_set x y).score < u.2 := by
  have hspec := (s.alignment_set_spec x y).2.1
  by_cases hex : ∃ v ∈ s.visits x y, v.2 < ((fMAX : ℚ) : Score)
  · obtain ⟨l1, v, l2, hl, hf, h3, h4, h5⟩ :=
      bestFold_first_min (s.visits x y) ((fMAX : ℚ) : Score) ⟨1, 1⟩ hex
    rw [hf] at hspec
    have hs : (s.alignment_set x y).score = v.2 := congrArg Prod.fst hspec
    have hc : (s.alignment_set x y).cursor = v.1 := congrArg Prod.snd hspec
    refine ⟨fun u hu => hs ▸ h4 u hu, l1, l2, ?_, fun u hu => hs ▸ h3 u hu⟩
    rw [hs, hc, Prod.mk.eta]
    exact hl
  · push_neg at hex
    have hall : ∀ v ∈ s.visits x y, v.2 = ((fMAX : ℚ) : Score) :=
      fun v hv => le_antisymm
        ((s.visits_scores x y hb hv).2.trans hhi) (hex v hv)
    rw [bestFold_of_forall_le (s.visits x y) _ _ hex] at hspec
    have hs : (s.alignment_set x y).score = ((fMAX : ℚ) : Score) :=
      congrArg Prod.fst hspec
    have hc : (s.alignment_set x y).cursor = (⟨1, 1⟩ : Cursor) :=
      congrArg Prod.snd hspec
    obtain ⟨tl, htl⟩ := s.visits_cons x y hx hy
    have hG : s.gridScore x y 1 1 = ((fMAX : ℚ) : Score) :=
      hall (⟨1, 1⟩, s.gridScore x y 1 1)
        (htl ▸ List.mem_cons_self _ tl)
    refine ⟨fun u hu => hs ▸ hex u hu, [], tl, ?_, by simp⟩
    rw [hs, hc, List.nil_append, htl, hG]

theorem c4_anchor_first_min_witness :
    (Strategy.dynamic_time_warping.bounds.1 ≤
        Strategy.dynamic_time_warping.bounds.2) ∧
      (Strategy.dynamic_time_warping.bounds.2 ≤ ((fMAX : ℚ) : Score)) ∧
      (([(1 : ℚ)] : List ℚ) ≠ []) ∧ (([(2 : ℚ)] : List ℚ) ≠ []) ∧
      ((∀ v ∈ Strategy.dynamic_time_warping.visits [1] [2],
          (Strategy.dynamic_time_warping.alignment_set [1] [2]).score ≤
            v.2) ∧
        ∃ l1 l2, Strategy.dynamic_time_warping.visits [1] [2] =
            l1 ++ ((Strategy.dynamic_time_warping.alignment_set
                [1] [2]).cursor,
              (Strategy.dynamic_time_warping.alignment_set
                [1] [2]).score) :: l2 ∧
          ∀ u ∈ l1,
            (Strategy.dynamic_time_warping.alignment_set [1] [2]).score <
              u.2) :=
  ⟨dtw_bounds_le, le_refl _, List.cons_ne_nil 1 [], List.cons_ne_nil 2 [],
    c4_anchor_first_min Strategy.dynamic_time_warping [1] [2] dtw_bounds_le
      (le_refl _) (List.cons_ne_nil 1 []) (List.cons_ne_nil 2 [])⟩

/-- C8 (counterexample): the dynamic-time-warping preset's upper bound is
the finite value `f64::MAX`, not `+∞`, and a score exceeding it is clamped
down to `f64::MAX`. -/
theorem c8_dtw_bounds_counterexample :
    Strategy.dynamic_time_warping.bounds.2 = ((fMAX : ℚ) : Score) ∧
      ((fMAX : ℚ) : Score) ≠ (⊤ : Score) ∧
      Strategy.dynamic_time_warping.total_score ((fMAX + 1 : ℚ) : Score) =
        ((fMAX : ℚ) : Score) ∧
      ((fMAX + 1 : ℚ) : Score) ≠ ((fMAX : ℚ) : Score) := by
  refine ⟨rfl, WithTop.coe_ne_top, ?_, ?_⟩
  · rw [Strategy.total_score,
      show Strategy.dynamic_time_warping.bounds.1 = ((0 : ℚ) : Score)
        from rfl,
      show Strategy.dynamic_time_warping.bounds.2 = ((fMAX : ℚ) : Score)
        from rfl]
    rw [if_neg (not_lt.mpr (WithTop.coe_le_coe.mpr
      (by norm_num [fMAX] : (0 : ℚ) ≤ fMAX + 1)))]
    rw [if_pos (WithTop.coe_lt_coe.mpr
      (by norm_num : (fMAX : ℚ) < fMAX + 1))]
  · intro h
    exact absurd (WithTop.coe_inj.mp h) (by norm_num)

/-- C8 (amended): the dynamic-time-warping preset fixes
`equal_weight = unequal_weight = 1.0`, `threshold = 0.0` and score bounds
`[0, f64::MAX]`; accumulated scores above `f64::MAX` are clamped down to
`f64::MAX`. -/
theorem c8_dtw_preset_amended :
    Strategy.dynamic_time_warping.equal = 1 ∧
      Strategy.dynamic_time_warping.unequal = 1 ∧
      Strategy.dynamic_time_warping.threshold = 0 ∧
      Strategy.dynamic_time_warping.bounds.1 = ((0 : ℚ) : Score) ∧
      Strategy.dynamic_time_warping.bounds.2 = ((fMAX : ℚ) : Score) ∧
      ∀ v : Score, ((fMAX : ℚ) : Score) < v →
        Strategy.dynamic_time_warping.total_score v =
          ((fMAX : ℚ) : Score) := by
  refine ⟨rfl, rfl, rfl, rfl, rfl, ?_⟩
  intro v hv
  have h0v : ¬(v < ((0 : ℚ) : Score)) :=
    not_lt.mpr ((WithTop.coe_le_coe.mpr (le_of_lt fMAX_pos)).trans
      (le_of_lt hv))
  rw [Strategy.total_score,
    show Strategy.dynamic_time_warping.bounds.1 = ((0 : ℚ) : Score)
      from rfl,
    show Strategy.dynamic_time_warping.bounds.2 = ((fMAX : ℚ) : Score)
      from rfl,
    if_neg h0v, if_pos hv]

theorem c8_dtw_preset_amended_witness :
    (((fMAX : ℚ) : Score) < ((fMAX + 1 : ℚ) : Score)) ∧
      Strategy.dynamic_time_warping.total_score ((fMAX + 1 : ℚ) : Score) =
        ((fMAX : ℚ) : Score) :=
  ⟨WithTop.coe_lt_coe.mpr (by norm_num),
    c8_dtw_preset_amended.2.2.2.2.2 ((fMAX + 1 : ℚ) : Score)
      (WithTop.coe_lt_coe.mpr (by norm_num))⟩

section Transpose

/-- The local cost is symmetric in its two samples: the one-dimensional
Euclidean distance `|lhs - rhs|` does not depend on the order, and the
weight is chosen by the sign of the same `cost` value either way. -/
theorem Strategy.local_cost_comm (s : Strategy) (a b : ℚ) :
    s.local_cost a b = s.local_cost b a := by
  simp only [Strategy.local_cost]
  rw [abs_sub_comm]

/-- Transposing the inputs transposes the score grid (for a genuine bound
interval): the recurrence is symmetric up to the column-1 / row-1 clamped
diagonal reads, which only differ on `⊤` borders where an interior
predecessor decides the minimum anyway. -/
theorem Strategy.gridScore_transpose (s : Strategy)
    (hb : s.bounds.1 ≤ s.bounds.2) (x y : List ℚ) :
    ∀ n i j, i + j ≤ n → s.gridScore x y i j = s.gridScore y x j i := by
  intro n
  induction n with
  | zero =>
    intro i j hij
    obtain ⟨rfl, rfl⟩ : i = 0 ∧ j = 0 := by omega
    rfl
  | succ n ihn =>
    intro i j hij
    cases i with
    | zero =>
      cases j with
      | zero => rfl
      | succ jj => rfl
    | succ ii =>
      cases j with
      | zero => rfl
      | succ jj =>
        rw [s.gridScore_succ_succ x y ii jj, s.gridScore_succ_succ y x jj ii,
          Strategy.gridCell, Strategy.gridCell,
          Strategy.calculate_cell_score, Strategy.calculate_cell_score]
        simp only [Nat.add_sub_cancel]
        rw [s.local_cost_comm (x.getD ii 0) (y.getD jj 0)]
        congr 2
        rw [ihn (ii + 1) jj (by omega), ihn ii (jj + 1) (by omega),
          ihn ii jj (by omega)]
        cases ii with
        | zero =>
          cases jj with
          | zero =>
            apply le_antisymm <;> simp [le_inf_iff, inf_le_iff]
          | succ jj' =>
            rw [s.gridScore_zero_right y x jj',
              s.gridScore_zero_right y x (jj' + 1)]
            have hP := s.gridScore_interior_mem y x hb jj' 0
            have htop := s.le_total_score_top hb
            have h1 : s.gridScore y x (jj' + 1) 1 ≤ s.total_score ⊤ := by
              simpa using hP.2.trans htop
            apply le_antisymm <;> simp [le_inf_iff, inf_le_iff, h1]
        | succ ii' =>
          cases jj with
          | zero =>
            rw [s.gridScore_zero_left y x ii',
              s.gridScore_zero_left y x (ii' + 1)]
            have hP := s.gridScore_interior_mem y x hb 0 ii'
            have htop := s.le_total_score_top hb
            have h1 : s.gridScore y x 1 (ii' + 1) ≤ s.total_score ⊤ := by
              simpa using hP.2.trans htop
            apply le_antisymm <;> simp [le_inf_iff, inf_le_iff, h1]
          | succ jj' =>
            apply le_antisymm <;> simp [le_inf_iff, inf_le_iff]

theorem bestFold_fst (l : List (Cursor × Score)) :
    ∀ (b : Score) (c : Cursor),
      (bestFold (b, c) l).1 = (l.map Prod.snd).foldl min b := by
  induction l with
  | nil => intro b c; rfl
  | cons a t ih =>
    intro b c
    show (bestFold (bestStep (b, c) a) t).1 = _
    rw [List.map_cons, List.foldl_cons, bestStep]
    by_cases h : a.2 < b
    · rw [if_pos h, ih, min_eq_right (le_of_lt h)]
    · rw [if_neg h, ih, min_eq_left (not_lt.mp h)]

theorem foldl_min_eq_inf (l : List Score) :
    ∀ b : Score, l.foldl min b = b ⊓ ((l : Multiset Score)).inf := by
  induction l with
  | nil =>
    intro b
    show b = b ⊓ Multiset.inf 0
    rw [Multiset.inf_zero, inf_top_eq]
  | cons a t ih =>
    intro b
    rw [List.foldl_cons, ih, ← Multiset.cons_coe, Multiset.inf_cons,
      ← inf_assoc]

/-- The second components of the visit list, as the code visits them. -/
theorem Strategy.visits_map_snd (s : Strategy) (x y : List ℚ) :
    (s.visits x y).map Prod.snd =
      (List.range' 1 y.length).flatMap fun r =>
        (List.range' 1 x.length).map fun a => s.gridScore x y a r := by
  rw [Strategy.visits, List.map_flatMap]
  congr 1
  funext r
  rw [Strategy.rowVisits, List.map_map]
  rfl

/-- C7: a strategy with both weights equal to `w`, threshold `0` and a
genuine bound interval returns the same best score for `align(x, y)` as for
`align(y, x)`: the grids are transposes of each other, so the multiset of
interior scores — and hence the minimum against the `f64::MAX` seed — is
the same. -/
theorem c7_symmetry (w : ℚ) (lo hi : Score) (x y : List ℚ) (hb : lo ≤ hi) :
    ((Strategy.new w w 0 (lo, hi)).alignment_set x y).score =
      ((Strategy.new w w 0 (lo, hi)).alignment_set y x).score := by
  have h1 : ((Strategy.new w w 0 (lo, hi)).alignment_set x y).score =
      (bestFold (((fMAX : ℚ) : Score), (⟨1, 1⟩ : Cursor))
        ((Strategy.new w w 0 (lo, hi)).visits x y)).1 :=
    congrArg Prod.fst ((Strategy.new w w 0 (lo, hi)).alignment_set_spec x y).2.1
  have h2 : ((Strategy.new w w 0 (lo, hi)).alignment_set y x).score =
      (bestFold (((fMAX : ℚ) : Score), (⟨1, 1⟩ : Cursor))
        ((Strategy.new w w 0 (lo, hi)).visits y x)).1 :=
    congrArg Prod.fst ((Strategy.new w w 0 (lo, hi)).alignment_set_spec y x).2.1
  rw [h1, h2, bestFold_fst, bestFold_fst, foldl_min_eq_inf, foldl_min_eq_inf]
  have htr : ∀ i j, (Strategy.new w w 0 (lo, hi)).gridScore x y i j =
      (Strategy.new w w 0 (lo, hi)).gridScore y x j i :=
    fun i j => (Strategy.new w w 0 (lo, hi)).gridScore_transpose hb x y
      (i + j) i j (le_refl _)
  have hms : ((((Strategy.new w w 0 (lo, hi)).visits x y).map Prod.snd :
        List Score) : Multiset Score) =
      ((((Strategy.new w w 0 (lo, hi)).visits y x).map Prod.snd :
        List Score) : Multiset Score) := by
    rw [Strategy.visits_map_snd, Strategy.visits_map_snd]
    rw [← Multiset.coe_bind, ← Multiset.coe_bind]
    simp only [← Multiset.map_coe, ← Multiset.bind_singleton]
    rw [Multiset.bind_bind]
    simp only [htr]
  rw [hms]

theorem c7_symmetry_witness :
    (((0 : ℚ) : Score) ≤ ((fMAX : ℚ) : Score)) ∧
      ((Strategy.new 1 1 0 (((0 : ℚ) : Score),
          ((fMAX : ℚ) : Score))).alignment_set [1, 2] [3]).score =
        ((Strategy.new 1 1 0 (((0 : ℚ) : Score),
          ((fMAX : ℚ) : Score))).alignment_set [3] [1, 2]).score :=
  ⟨WithTop.coe_le_coe.mpr (le_of_lt fMAX_pos),
    c7_symmetry 1 ((0 : ℚ) : Score) ((fMAX : ℚ) : Score) [1, 2] [3]
      (WithTop.coe_le_coe.mpr (le_of_lt fMAX_pos))⟩

end Transpose

section WriteCount

/-- Occurrences of a position in the column-border write sequence. -/
theorem count_map_col (cx cy : Nat) :
    ∀ (n st : Nat),
      ((List.range' st n).map fun yy => (⟨0, yy⟩ : Cursor)).count
          ⟨cx, cy⟩ =
        if cx = 0 ∧ st ≤ cy ∧ cy < st + n then 1 else 0 := by
  intro n
  induction n with
  | zero =>
    intro st
    rw [show ((List.range' st 0).map fun yy => (⟨0, yy⟩ : Cursor)) = []
      from rfl, List.count_nil, if_neg (by omega)]
  | succ n ih =>
    intro st
    rw [List.range'_succ, List.map_cons, List.count_cons, ih (st + 1)]
    simp only [beq_iff_eq, Cursor.mk.injEq]
    split_ifs <;> omega

/-- Occurrences of a position in the write sequence of one grid row `r`. -/
theorem count_map_row (cx cy r : Nat) :
    ∀ (n st : Nat),
      ((List.range' st n).map fun a => (⟨a, r⟩ : Cursor)).count ⟨cx, cy⟩ =
        if cy = r ∧ st ≤ cx ∧ cx < st + n then 1 else 0 := by
  intro n
  induction n with
  | zero =>
    intro st
    rw [show ((List.range' st 0).map fun a => (⟨a, r⟩ : Cursor)) = []
      from rfl, List.count_nil, if_neg (by omega)]
  | succ n ih =>
    intro st
    rw [List.range'_succ, List.map_cons, List.count_cons, ih (st + 1)]
    simp only [beq_iff_eq, Cursor.mk.injEq]
    split_ifs <;> omega

/-- Occurrences of a position in the interior write sequence (rows
`st..st+m-1`, columns `1..w`). -/
theorem count_flat (cx cy w : Nat) :
    ∀ (m st : Nat),
      (((List.range' st m).flatMap fun r =>
          (List.range' 1 w).map fun a => (⟨a, r⟩ : Cursor)).count
          ⟨cx, cy⟩) =
        if 1 ≤ cx ∧ cx ≤ w ∧ st ≤ cy ∧ cy < st + m then 1 else 0 := by
  intro m
  induction m with
  | zero =>
    intro st
    rw [show ((List.range' st 0).flatMap fun r =>
        (List.range' 1 w).map fun a => (⟨a, r⟩ : Cursor)) = [] from rfl,
      List.count_nil, if_neg (by omega)]
  | succ m ih =>
    intro st
    rw [List.range'_succ, List.flatMap_cons, List.count_append, ih (st + 1),
      count_map_row cx cy st w 1]
    split_ifs <;> omega

end WriteCount

/-- C9: for every pair of input sequences, the allocated grid has
`width = len x + 1` and `height = len y + 1`, and every grid position is
defined exactly once over the call: the origin by the allocation default,
the borders by the seeding pass, the interior cells by the fill — and no
position outside the grid is ever written. -/
theorem c9_dims_write_once (s : Strategy) (x y : List ℚ) :
    (s.alignment_set x y).matrix.width = x.length + 1 ∧
      (s.alignment_set x y).matrix.height = y.length + 1 ∧
      ∀ c : Cursor, (s.alignment_set x y).matrix.writes.count c =
        if c.x < x.length + 1 ∧ c.y < y.length + 1 then 1 else 0 := by
  obtain ⟨-, -, hw, hh, hwr⟩ := s.alignment_set_spec x y
  refine ⟨hw, hh, ?_⟩
  intro c
  obtain ⟨cx, cy⟩ := c
  rw [hwr, List.count_cons, List.count_append, List.count_append,
    count_map_col cx cy y.length 1, count_map_row cx cy 0 x.length 1,
    count_flat cx cy x.length y.length 1]
  simp only [beq_iff_eq, Cursor.mk.injEq, List.count_nil]
  split_ifs <;> omega

end Seal
